import Mathlib

/-
Verification of the conditional-SAGE-cone compiler
(sageopt/coniclifts/constraints/set_membership/conditional_sage_cone.py)
against its natural-language specification.

The embedding below translates the algorithmic core of the module:
  * the sign classification of coefficient entries (ExpCoverHelper.__init__),
  * default cover construction with the aggressive reduction and the
    trivial-AGE-cone elimination (ExpCoverHelper._default_exp_covers),
  * validation of a caller-supplied cover map (ExpCoverHelper._verify_exp_covers),
  * the aligned age vectors and the global sum-to-c equality block
    (PrimalCondSageCone._build_aligned_age_vectors, _age_vectors_sum_to_c,
    conic_form),
  * the rough violation estimators of both compilers.

External collaborators (the conic solver used by the reduction heuristic and
by exact projections, the dual-cone projection primitive, and the
transcendental rel_entr kernel) are modelled as oracle parameters: the code
only branches on their results, and the claims under verification are about
those branches.  Machine reals are modelled by the rationals; none of the
verified claims depends on properties the rationals lack.
-/

namespace CondSage

/-- Model of a coniclifts ScalarExpression as far as the sign classification
reads it: whether the expression is constant, and its constant term
(its offset). -/
structure ScalarExpr where
  is_const : Bool
  offset : ℚ
deriving DecidableEq, Repr

instance : Inhabited ScalarExpr := ⟨⟨true, 0⟩⟩

/-- ExpCoverHelper.__init__, line 433:
U_I = indices i with (not c_i.is_constant()) or (c_i.offset < 0). -/
def U_I (c : List ScalarExpr) : List ℕ :=
  (List.range c.length).filter fun i =>
    !(c.getD i ⟨true, 0⟩).is_const || decide ((c.getD i ⟨true, 0⟩).offset < 0)

/-- ExpCoverHelper.__init__, line 437:
N_I = indices i with c_i.is_constant() and c_i.offset < 0. -/
def N_I (c : List ScalarExpr) : List ℕ :=
  (List.range c.length).filter fun i =>
    (c.getD i ⟨true, 0⟩).is_const && decide ((c.getD i ⟨true, 0⟩).offset < 0)

/-- ExpCoverHelper.__init__, line 442:
P_I = indices i with c_i.is_constant() and c_i.offset > 0. -/
def P_I (c : List ScalarExpr) : List ℕ :=
  (List.range c.length).filter fun i =>
    (c.getD i ⟨true, 0⟩).is_const && decide ((c.getD i ⟨true, 0⟩).offset > 0)

/-! ### Cover selection (ExpCoverHelper._default_exp_covers)

The module-level flags _AGGRESSIVE_REDUCTION_ and _ELIMINATE_TRIVIAL_AGE_CONES_
are both the constant True in the source, so both stages are inlined as
enabled.  The nested conic solve of the trivial-cone elimination is an
external collaborator; it is modelled as an oracle from the constraint matrix
to an optional optimal value (some v = ECOS returned status "solved" with
optimal value v; none = any other status). -/

/-- Dot product of two exponent rows (curr_row @ self.alpha[j, :]). -/
def dotProd (u v : List ℚ) : ℚ := (List.zipWith (fun a b => a * b) u v).sum

/-- One entry of row_sums = np.sum(self.alpha, 1). -/
def rowSum (r : List ℚ) : ℚ := r.sum

/-- np.all(self.alpha >= 0). -/
def allNonneg (alpha : List (List ℚ)) : Bool :=
  alpha.all fun r => r.all fun x => decide (0 ≤ x)

/-- Guard of the aggressive reduction, line 477:
np.all(self.alpha >= 0) and np.min(row_sums) == 0.  (For an empty matrix
np.min raises; the model returns false, but every instance has m >= 1.) -/
def aggPrecond (alpha : List (List ℚ)) : Bool :=
  allNonneg alpha && decide ((alpha.map rowSum).min? = some 0)

/-- zero_loc = np.nonzero(row_sums == 0)[0][0]: index of the first row whose
entries sum to zero (= the first all-zero row, when all entries are
nonnegative). -/
def zeroLoc (alpha : List (List ℚ)) : ℕ :=
  alpha.findIdx fun r => decide (rowSum r = 0)

/-- Lines 471-473: cov = np.ones(m, bool); cov[N_I] = False; cov[i] = False. -/
def initialCover (m : ℕ) (nI : List ℕ) (i : ℕ) : List Bool :=
  (List.range m).map fun j => !(decide (j ∈ nI)) && !(decide (j = i))

/-- The inner loop of the aggressive reduction, lines 485-487: entry j of the
cover of term i is cleared when it was set, j is not the zero row, and rows i
and j are orthogonal. -/
def aggReduceCover (alpha : List (List ℚ)) (zl i : ℕ) (cov : List Bool) : List Bool :=
  (List.range alpha.length).map fun j =>
    cov.getD j false &&
      !(decide (j ≠ zl) && decide (dotProd (alpha.getD i []) (alpha.getD j []) = 0))

/-- The cover of term i after the default construction and the aggressive
reduction (lines 470-487): the reduction runs only when the guard holds, and
skips the zero-row term itself. -/
def afterAggCover (alpha : List (List ℚ)) (nI : List ℕ) (i : ℕ) : List Bool :=
  let base := initialCover alpha.length nI i
  if aggPrecond alpha = true ∧ i ≠ zeroLoc alpha then
    aggReduceCover alpha (zeroLoc alpha) i base
  else base

/-- mat = self.alpha[expcovers[i], :] - self.alpha[i, :] (line 491). -/
def coverMat (alpha : List (List ℚ)) (i : ℕ) (cov : List Bool) : List (List ℚ) :=
  ((List.range alpha.length).filter fun j => cov.getD j false).map fun j =>
    List.zipWith (fun a b => a - b) (alpha.getD j []) (alpha.getD i [])

/-- Trivial-AGE-cone elimination for one term, lines 489-499: when the cover
is nonempty, solve (min t : mat x <= t, A x + b in K); on solved status with
value < -100 empty the cover, otherwise keep it. -/
def elimStep (solve : List (List ℚ) → Option ℚ) (alpha : List (List ℚ)) (i : ℕ)
    (cov : List Bool) : List Bool :=
  if cov.any id then
    match solve (coverMat alpha i cov) with
    | some v => if v < -100 then List.replicate cov.length false else cov
    | none => cov
  else cov

/-- ExpCoverHelper._default_exp_covers: the full default pipeline, producing
the dict keyed by the must-certify indices. -/
def defaultExpCovers (solve : List (List ℚ) → Option ℚ) (alpha : List (List ℚ))
    (uI nI : List ℕ) : List (ℕ × List Bool) :=
  uI.map fun i => (i, elimStep solve alpha i (afterAggCover alpha nI i))

/-! ### Caller-supplied cover maps (ExpCoverHelper.__init__ / _verify_exp_covers) -/

/-- A value of a caller-supplied expcovers dict: a boolean numpy array
(modelled by its contents), or an object of the wrong datatype (not an
ndarray, or dtype other than bool). -/
inductive CoverVal where
  | boolMask (mask : List Bool)
  | wrongType
deriving DecidableEq, Repr

/-- The expcovers constructor argument: absent (None), a dict, or any other
object (lines 449-454). -/
inductive CoverArg where
  | noneArg
  | dict (d : List (ℕ × CoverVal))
  | otherArg
deriving DecidableEq, Repr

/-- In-place replacement of the value stored under key i. -/
def updateVal (d : List (ℕ × CoverVal)) (i : ℕ) (v : CoverVal) : List (ℕ × CoverVal) :=
  d.map fun p => if p.1 = i then (p.1, v) else p

/-- One iteration of _verify_exp_covers (lines 458-465) at key i: a missing
key or a non-boolean-array value raises; otherwise the self-cover entry
expcovers[i][i] is read (raising IndexError when the mask is too short to
index position i, as numpy does), and a true self-cover entry is corrected
to False with a warning.  The state is the current dict together with the
list of keys warned about so far. -/
def verifyStep (dw : List (ℕ × CoverVal) × List ℕ) (i : ℕ) :
    Except String (List (ℕ × CoverVal) × List ℕ) :=
  match dw.1.lookup i with
  | none => Except.error "Required key missing from expcovers."
  | some CoverVal.wrongType => Except.error "A value in expcovers was the wrong datatype."
  | some (CoverVal.boolMask mask) =>
    if h : i < mask.length then
      if mask.get ⟨i, h⟩ then
        Except.ok (updateVal dw.1 i (CoverVal.boolMask (mask.set i false)), dw.2 ++ [i])
      else Except.ok dw
    else Except.error "IndexError"

/-- ExpCoverHelper._verify_exp_covers: the loop over the must-certify keys. -/
def verifyExpCovers (uI : List ℕ) (d : List (ℕ × CoverVal)) :
    Except String (List (ℕ × CoverVal) × List ℕ) :=
  uI.foldlM verifyStep (d, [])

/-- Lines 449-455 of ExpCoverHelper.__init__: dispatch on the expcovers
argument.  The result pairs the final cover dict with the warned keys. -/
def buildExpCovers (solve : List (List ℚ) → Option ℚ) (alpha : List (List ℚ))
    (uI nI : List ℕ) (arg : CoverArg) :
    Except String (List (ℕ × CoverVal) × List ℕ) :=
  match arg with
  | CoverArg.dict d => verifyExpCovers uI d
  | CoverArg.noneArg =>
    Except.ok ((defaultExpCovers solve alpha uI nI).map
      fun p => (p.1, CoverVal.boolMask p.2), [])
  | CoverArg.otherArg => Except.error "Argument expcovers must be a dict."

/-- A dict entry usable by _verify_exp_covers without raising: key present,
value a boolean mask, and the mask long enough to index position i. -/
def keyOk (d : List (ℕ × CoverVal)) (i : ℕ) : Prop :=
  ∃ mask, d.lookup i = some (CoverVal.boolMask mask) ∧ i < mask.length

/-! ### Aligned age vectors and conic_form (PrimalCondSageCone) -/

/-- Number of covered terms, np.count_nonzero(expcovers[i]) (line 100). -/
def trueCount (cov : List Bool) : ℕ := (cov.filter id).length

/-- Position of index j within the covered subset: the number of covered
indices strictly before j (numpy boolean-mask assignment order). -/
def rankIn (cov : List Bool) (j : ℕ) : ℕ := ((cov.take j).filter id).length

/-- _build_aligned_age_vectors (lines 119-129): entry j of the aligned age
vector of must-certify term i.  cval is the value of the coefficient
expression c[i]; cvars k is the value of component k of the decomposition
variable c_vars[i].  Covered indices take the leading components of
c_vars[i] in order; the entry at i itself is the fixed coefficient c[i] when
i is definite-negative and otherwise the trailing free component of
c_vars[i]; all other entries are zero. -/
def ageVector (m : ℕ) (nI : List ℕ) (cov : List Bool) (cval : ℚ)
    (cvars : ℕ → ℚ) (i : ℕ) (j : ℕ) : ℚ :=
  if j = i then (if i ∈ nI then cval else cvars (trueCount cov))
  else if j < m ∧ cov.getD j false then cvars (rankIn cov j)
  else 0

/-- The whole age-vector dict of _build_aligned_age_vectors, as a function
of the must-certify term index. -/
def buildAlignedAgeVectors (m : ℕ) (nI : List ℕ) (covOf : ℕ → List Bool)
    (cval : ℕ → ℚ) (cvars : ℕ → ℕ → ℚ) : ℕ → ℕ → ℚ :=
  fun i => ageVector m nI (covOf i) (cval i) (cvars i) i

/-- _age_vectors_sum_to_c (lines 192-201): one zero-cone equality row per
index outside the definite-negative set, equating the sum over the
must-certify set of the aligned age vectors with the coefficient there.
Each row is recorded as the pair (left side, right side). -/
def sumToCRows (m : ℕ) (uI nI : List ℕ) (av : ℕ → ℕ → ℚ) (cval : ℕ → ℚ) :
    List (ℚ × ℚ) :=
  ((List.range m).filter fun j => !(decide (j ∈ nI))).map
    fun j => ((uI.map fun i => av i j).sum, cval j)

/-- One block of conic data emitted by PrimalCondSageCone.conic_form.  The
per-term blocks are recorded by kind and term index (their internals involve
the precompiled relative-entropy and affine kernels, external collaborators);
the global sum-to-c zero-cone equality block carries its rows; the
degenerate m = 1 branch carries the coefficient entries constrained to the
nonnegative orthant. -/
inductive Block where
  | relEnt (i : ℕ)
  | linEq (i : ℕ)
  | lambdaDom (i : ℕ)
  | globalSum (rows : List (ℚ × ℚ))
  | nonneg (entries : List ℚ)
deriving DecidableEq, Repr

/-- Is this block the global sum-to-c zero-cone equality block? -/
def Block.isGlobalSum : Block → Bool
  | Block.globalSum _ => true
  | _ => false

/-- PrimalCondSageCone.conic_form (lines 206-224): for m > 1, three blocks
per must-certify term (relative-entropy block, linear-equality block,
dual-cone domain block for lambda) followed by the single global sum-to-c
block; for m = 1, the single constraint c >= 0. -/
def conicForm (m : ℕ) (uI nI : List ℕ) (av : ℕ → ℕ → ℚ) (cval : ℕ → ℚ) :
    List Block :=
  if 1 < m then
    (uI.flatMap fun i => [Block.relEnt i, Block.linEq i, Block.lambdaDom i]) ++
      [Block.globalSum (sumToCRows m uI nI av cval)]
  else [Block.nonneg ((List.range m).map cval)]

/-! ### Violation estimators -/

/-- np.linalg.norm(x, ord=np.inf): the largest absolute entry. -/
def linfNorm (v : List ℚ) : ℚ := (v.map fun x => |x|).foldl max 0

/-- PrimalCondSageCone.violation, m = 1 branch (lines 266-269): residual is
a reshape view of c, so zeroing its nonnegative entries in place also
mutates c; the returned norm of c is therefore the norm of the clamped
vector. -/
def violationM1 (c : List ℚ) : ℚ :=
  linfNorm (c.map fun x => if 0 ≤ x then 0 else x)

/-- A per-term rough AGE violation: a finite value, or the infinity that
scipy rel_entr produces when some nu entry is positive while the paired
age-vector entry is nonpositive. -/
inductive AgeViol where
  | fin (q : ℚ)
  | infinite
deriving DecidableEq, Repr

/-- Whether a per-term violation is the infinite one. -/
def AgeViol.isInf : AgeViol → Bool
  | AgeViol.infinite => true
  | _ => false

/-- The finite per-term violations in order, age_viols[age_viols < np.inf]. -/
def finiteViols (l : List AgeViol) : List ℚ :=
  l.filterMap fun v =>
    match v with
    | AgeViol.fin q => some q
    | AgeViol.infinite => none

/-- Python max over a list; meaningful only for nonempty input (np.max and
max raise on an empty collection). -/
def maxList (l : List ℚ) : ℚ :=
  match l with
  | [] => 0
  | x :: xs => xs.foldl max x

/-- Lines 250-254 of PrimalCondSageCone.violation: the clipped sum-to-c
shortfall; residual = c minus the summed age vectors, negative entries
zeroed, then the inf-norm. -/
def sumToCViol (m : ℕ) (uI : List ℕ) (av : ℕ → ℕ → ℚ) (cval : ℕ → ℚ) : ℚ :=
  linfNorm ((List.range m).map fun j =>
    (fun r => if r < 0 then 0 else r) (cval j - (uI.map fun i => av i j).sum))

/-- Lines 255-265 of PrimalCondSageCone.violation (rough mode, m > 1):
the shortfall norm plus either the maximum of the per-term AGE violations
(all finite), or, when some per-term violation is infinite, the sum of the
finite ones plus the exact projection distance that
PrimalCondSageCone.project returns (an external solve, an oracle here). -/
def primalRoughViolation (m : ℕ) (uI : List ℕ) (av : ℕ → ℕ → ℚ) (cval : ℕ → ℚ)
    (ageViols : List AgeViol) (projVal : ℚ) : ℚ :=
  if ageViols.any AgeViol.isInf then
    sumToCViol m uI av cval + (finiteViols ageViols).sum + projVal
  else
    sumToCViol m uI av cval + maxList (finiteViols ageViols)

/-- mat = -(alpha[selector] - alpha[i]) applied to mu_i, i.e. mat @ mu_i of
line 371: row j of the cover contributes the dot product of
alpha_i - alpha_j with mu. -/
def negCoverMatVec (alpha : List (List ℚ)) (i : ℕ) (cov : List Bool)
    (mu : List ℚ) : List ℚ :=
  ((List.range alpha.length).filter fun j => cov.getD j false).map fun j =>
    dotProd (List.zipWith (fun a b => b - a) (alpha.getD j []) (alpha.getD i [])) mu

/-- DualCondSageCone._dual_age_cone_violation with rough=True (lines
361-388): for a nonempty cover, the inf-norm of the negatively clipped
residual (mat @ mu_i minus the rel_entr lower bounds, entries >= 0 zeroed)
plus the projection distance of A mu_i + v_i b onto K; for an empty cover,
zero.  lowerbounds (scipy rel_entr of v values, transcendental) and abkViol
(the PrimalProductCone.project distance, an external primitive) enter as
oracle inputs. -/
def dualAgeViolationRough (alpha : List (List ℚ)) (i : ℕ) (cov : List Bool)
    (mu : List ℚ) (lowerbounds : List ℚ) (abkViol : ℚ) : ℚ :=
  if cov.any id then
    linfNorm ((List.zipWith (fun a l => a - l) (negCoverMatVec alpha i cov mu)
      lowerbounds).map fun x => if 0 ≤ x then 0 else x) + abkViol
  else 0

/-- DualCondSageCone.violation (lines 411-418): the maximum of the per-term
rough violations over the must-certify indices. -/
def dualViolation (alpha : List (List ℚ)) (uI : List ℕ) (covOf : ℕ → List Bool)
    (muOf : ℕ → List ℚ) (lbOf : ℕ → List ℚ) (abkOf : ℕ → ℚ) : ℚ :=
  maxList (uI.map fun i =>
    dualAgeViolationRough alpha i (covOf i) (muOf i) (lbOf i) (abkOf i))

/-- Concrete coefficient vector used by the C2 witness: one non-constant
entry followed by a constant positive entry. -/
def cWitness : List ScalarExpr := [⟨false, 0⟩, ⟨true, 3⟩]

/-- Concrete coefficient vector used by the C1 witness: two constant
negative entries. -/
def cW1 : List ScalarExpr := [⟨true, -1⟩, ⟨true, -2⟩]

/-- Valuation of cW1 consistent with its constant entries. -/
def cvalW1 : ℕ → ℚ := fun i => if i = 0 then -1 else if i = 1 then -2 else 0

end CondSage

open CondSage

/-- Reading an element of a list built by mapping over List.range. -/
theorem CondSage.getD_map_range {α : Type} (f : ℕ → α) (n j : ℕ) (d : α) (hj : j < n) :
    ((List.range n).map f).getD j d = f j := by
  simp [List.getD_eq_getElem?_getD, List.getElem?_map, List.getElem?_range, hj]

/-- Reading a list within bounds with getD is reading with get. -/
theorem CondSage.getD_eq_get {α : Type} (l : List α) (d : α) (i : ℕ) (h : i < l.length) :
    l.getD i d = l.get ⟨i, h⟩ := by
  simp [List.getD_eq_getElem?_getD, List.getElem?_eq_getElem h]

/-- Reading a list past its end with getD yields the default. -/
theorem CondSage.getD_eq_default {α : Type} (l : List α) (d : α) (i : ℕ) (h : l.length ≤ i) :
    l.getD i d = d := by
  simp [List.getD_eq_getElem?_getD, List.getElem?_eq_none h]

/-- The dot product of exponent rows is symmetric. -/
theorem CondSage.dotProd_comm (u v : List ℚ) : dotProd u v = dotProd v u := by
  unfold dotProd
  rw [List.zipWith_comm_of_comm (fun a b => a * b) mul_comm]

/-- A dot product against an all-zero row vanishes. -/
theorem CondSage.dotProd_zero_right : ∀ u v : List ℚ, (∀ x ∈ v, x = 0) → dotProd u v = 0 := by
  intro u
  induction u with
  | nil =>
    intro v h
    simp [dotProd]
  | cons a u ih =>
    intro v h
    cases v with
    | nil => simp [dotProd]
    | cons b v =>
      have hb : b = 0 := h b (by simp)
      have hv : dotProd u v = 0 := ih v fun x hx => h x (by simp [hx])
      simp only [dotProd, List.zipWith_cons_cons, List.sum_cons] at hv ⊢
      rw [hb, mul_zero, hv, add_zero]

/-- A row of nonnegative entries sums to zero exactly when it is all zero. -/
theorem CondSage.rowSum_eq_zero_iff :
    ∀ r : List ℚ, (∀ x ∈ r, 0 ≤ x) → (rowSum r = 0 ↔ ∀ x ∈ r, x = 0) := by
  intro r
  induction r with
  | nil =>
    intro h
    simp [rowSum]
  | cons a t ih =>
    intro h
    have ha : 0 ≤ a := h a (List.mem_cons_self a t)
    have ht : ∀ x ∈ t, 0 ≤ x := fun x hx => h x (List.mem_cons_of_mem a hx)
    have htsum : 0 ≤ t.sum := List.sum_nonneg ht
    simp only [rowSum, List.sum_cons]
    constructor
    · intro h0
      have ha0 : a = 0 := by linarith
      have hts : t.sum = 0 := by linarith
      intro x hx
      rcases List.mem_cons.mp hx with rfl | hx2
      · exact ha0
      · exact (ih ht).mp hts x hx2
    · intro hall
      have hts : t.sum = 0 := (ih ht).mpr fun x hx => hall x (List.mem_cons_of_mem a hx)
      rw [hall a (List.mem_cons_self a t), hts, add_zero]

/-- Under the aggressive-reduction guard, every row is entrywise
nonnegative. -/
theorem CondSage.aggPrecond_rows_nonneg (alpha : List (List ℚ))
    (hpre : aggPrecond alpha = true) :
    ∀ r ∈ alpha, ∀ x ∈ r, 0 ≤ x := by
  have hand : allNonneg alpha = true ∧ (alpha.map rowSum).min? = some 0 := by
    have h := hpre
    unfold aggPrecond at h
    simpa using h
  intro r hr x hx
  exact of_decide_eq_true
    (List.all_eq_true.mp (List.all_eq_true.mp hand.1 r hr) x hx)

/-- Under the aggressive-reduction guard, zero_loc is exactly the index of
the first all-zero row: it is in range, its row is all zero, and every
earlier row has a nonzero entry. -/
theorem CondSage.zeroLoc_spec (alpha : List (List ℚ)) (hpre : aggPrecond alpha = true) :
    zeroLoc alpha < alpha.length ∧
    (∀ x ∈ alpha.getD (zeroLoc alpha) [], x = 0) ∧
    (∀ k, k < zeroLoc alpha → ∃ x ∈ alpha.getD k [], x ≠ 0) := by
  have hand : allNonneg alpha = true ∧ (alpha.map rowSum).min? = some 0 := by
    have h := hpre
    unfold aggPrecond at h
    simpa using h
  have h0mem : (0 : ℚ) ∈ alpha.map rowSum :=
    List.min?_mem (fun a b => min_choice a b) hand.2
  obtain ⟨r, hr, hrs⟩ := List.mem_map.mp h0mem
  have hex : ∃ x ∈ alpha, (fun row => decide (rowSum row = 0)) x = true :=
    ⟨r, hr, decide_eq_true hrs⟩
  have hlt : zeroLoc alpha < alpha.length := List.findIdx_lt_length_of_exists hex
  refine ⟨hlt, ?_, ?_⟩
  · have hp : (fun row => decide (rowSum row = 0))
        (alpha.get ⟨zeroLoc alpha, hlt⟩) = true := List.findIdx_getElem (w := hlt)
    have hmem : alpha.get ⟨zeroLoc alpha, hlt⟩ ∈ alpha := alpha.get_mem _ hlt
    have hz := (rowSum_eq_zero_iff _
      (aggPrecond_rows_nonneg alpha hpre _ hmem)).mp (of_decide_eq_true hp)
    rw [getD_eq_get _ _ _ hlt]
    exact hz
  · intro k hk
    have hkl : k < alpha.length := lt_trans hk hlt
    have hp : (fun row => decide (rowSum row = 0)) (alpha.get ⟨k, hkl⟩) = false :=
      List.not_of_lt_findIdx hk
    have hmem : alpha.get ⟨k, hkl⟩ ∈ alpha := alpha.get_mem _ hkl
    rw [getD_eq_get _ _ _ hkl]
    by_contra hno
    push_neg at hno
    have hz : rowSum (alpha.get ⟨k, hkl⟩) = 0 := (rowSum_eq_zero_iff _
      (aggPrecond_rows_nonneg alpha hpre _ hmem)).mpr hno
    have hp2 : decide (rowSum (alpha.get ⟨k, hkl⟩) = 0) = false := hp
    rw [decide_eq_true hz] at hp2
    exact Bool.noConfusion hp2

/-- Entry j of a must-certify cover after the aggressive reduction, when the
reduction is enabled and i is not the zero-row term. -/
theorem CondSage.afterAgg_getD (alpha : List (List ℚ)) (nI : List ℕ) (i j : ℕ)
    (hpre : aggPrecond alpha = true) (hne : i ≠ zeroLoc alpha) (hj : j < alpha.length) :
    (afterAggCover alpha nI i).getD j false =
      ((initialCover alpha.length nI i).getD j false &&
        !(decide (j ≠ zeroLoc alpha) &&
          decide (dotProd (alpha.getD i []) (alpha.getD j []) = 0))) := by
  unfold afterAggCover
  rw [if_pos ⟨hpre, hne⟩]
  unfold aggReduceCover
  rw [getD_map_range _ _ _ _ hj]

/-- A list with a true entry is not the all-false mask. -/
theorem CondSage.any_ne_replicate_false (cov : List Bool) (h : cov.any id = true) :
    cov ≠ List.replicate cov.length false := by
  intro he
  rcases List.any_eq_true.mp h with ⟨x, hmem, hx⟩
  rw [he] at hmem
  rw [List.eq_of_mem_replicate hmem] at hx
  simp at hx

/-- elimStep when the solver does not return solved status. -/
theorem CondSage.elimStep_none (solve : List (List ℚ) → Option ℚ) (alpha : List (List ℚ))
    (i : ℕ) (cov : List Bool) (hany : cov.any id = true)
    (hsol : solve (coverMat alpha i cov) = none) :
    elimStep solve alpha i cov = cov := by
  unfold elimStep
  rw [if_pos hany, hsol]

/-- elimStep when the solver returns solved status with optimal value v. -/
theorem CondSage.elimStep_some (solve : List (List ℚ) → Option ℚ) (alpha : List (List ℚ))
    (i : ℕ) (cov : List Bool) (v : ℚ) (hany : cov.any id = true)
    (hsol : solve (coverMat alpha i cov) = some v) :
    elimStep solve alpha i cov = if v < -100 then List.replicate cov.length false else cov := by
  unfold elimStep
  rw [if_pos hany, hsol]

/-- C3: the aggressive cover reduction runs only under its guard (all exponent
entries nonnegative and some row summing to zero); under the guard, for a
must-certify term i other than the zero-row term, entry j survives in i's
cover exactly when it was present and not (j differs from the zero-row term
and rows i and j are orthogonal); in particular two non-zero-row must-certify
terms with orthogonal rows drop each other. -/
theorem C3_aggressive_reduction :
    (∀ (alpha : List (List ℚ)) (nI : List ℕ) (i : ℕ),
      aggPrecond alpha = false →
      afterAggCover alpha nI i = initialCover alpha.length nI i) ∧
    (∀ (alpha : List (List ℚ)) (uI nI : List ℕ) (i j : ℕ),
      aggPrecond alpha = true → i ∈ uI → i ≠ zeroLoc alpha → j < alpha.length →
      (afterAggCover alpha nI i).getD j false =
        ((initialCover alpha.length nI i).getD j false &&
          !(decide (j ≠ zeroLoc alpha) &&
            decide (dotProd (alpha.getD i []) (alpha.getD j []) = 0)))) ∧
    (∀ (alpha : List (List ℚ)) (uI nI : List ℕ) (i j : ℕ),
      aggPrecond alpha = true → i ∈ uI → j ∈ uI →
      i ≠ zeroLoc alpha → j ≠ zeroLoc alpha →
      i < alpha.length → j < alpha.length →
      dotProd (alpha.getD i []) (alpha.getD j []) = 0 →
      (afterAggCover alpha nI i).getD j false = false ∧
      (afterAggCover alpha nI j).getD i false = false) := by
  refine ⟨?_, ?_, ?_⟩
  · intro alpha nI i h
    unfold afterAggCover
    rw [if_neg]
    rintro ⟨hpre, -⟩
    rw [h] at hpre
    exact Bool.false_ne_true hpre
  · intro alpha uI nI i j hpre hmem hne hj
    exact afterAgg_getD alpha nI i j hpre hne hj
  · intro alpha uI nI i j hpre hiu hju hnei hnej hi hj hdot
    constructor
    · rw [afterAgg_getD alpha nI i j hpre hnei hj, decide_eq_true hnej,
        decide_eq_true hdot]
      simp
    · rw [dotProd_comm] at hdot
      rw [afterAgg_getD alpha nI j i hpre hnej hi, decide_eq_true hnei,
        decide_eq_true hdot]
      simp

/-- C3 witness: a negative entry disables the reduction; on the matrix
[[0,0],[1,0],[0,1]] rows 1 and 2 are orthogonal, neither is the zero row, and
each one's reduced cover excludes the other. -/
theorem C3_aggressive_reduction_witness :
    (afterAggCover [[(-1 : ℚ)]] [] 0 = initialCover 1 [] 0) ∧
    ((afterAggCover [[(0 : ℚ), 0], [1, 0], [0, 1]] [] 1).getD 2 false =
      ((initialCover 3 [] 1).getD 2 false &&
        !(decide ((2 : ℕ) ≠ zeroLoc [[(0 : ℚ), 0], [1, 0], [0, 1]]) &&
          decide (dotProd ([[(0 : ℚ), 0], [1, 0], [0, 1]].getD 1 [])
            ([[(0 : ℚ), 0], [1, 0], [0, 1]].getD 2 []) = 0)))) ∧
    ((afterAggCover [[(0 : ℚ), 0], [1, 0], [0, 1]] [] 1).getD 2 false = false ∧
      (afterAggCover [[(0 : ℚ), 0], [1, 0], [0, 1]] [] 2).getD 1 false = false) :=
  ⟨C3_aggressive_reduction.1 [[(-1 : ℚ)]] [] 0
      (by simp [aggPrecond, allNonneg, rowSum]),
    C3_aggressive_reduction.2.1 [[(0 : ℚ), 0], [1, 0], [0, 1]] [1, 2] [] 1 2
      (by simp [aggPrecond, allNonneg, rowSum, List.min?]) (by decide)
      (by simp [zeroLoc, List.findIdx, List.findIdx.go, rowSum]) (by decide),
    C3_aggressive_reduction.2.2 [[(0 : ℚ), 0], [1, 0], [0, 1]] [1, 2] [] 1 2
      (by simp [aggPrecond, allNonneg, rowSum, List.min?]) (by decide) (by decide)
      (by simp [zeroLoc, List.findIdx, List.findIdx.go, rowSum])
      (by simp [zeroLoc, List.findIdx, List.findIdx.go, rowSum])
      (by decide) (by decide) (by simp [dotProd, List.getD])⟩

/-- C10: under the aggressive-reduction guard, zero_loc is exactly the first
(lowest-index) all-zero row, and it alone is exempt: any other all-zero row
has zero dot product with every row, so it is dropped from the cover of
every must-certify term except the first zero-row term, whose own cover the
reduction leaves untouched. -/
theorem C10_extra_zero_rows :
    ∀ (alpha : List (List ℚ)) (uI nI : List ℕ) (j2 : ℕ),
      aggPrecond alpha = true → j2 ≠ zeroLoc alpha → j2 < alpha.length →
      (∀ x ∈ alpha.getD j2 [], x = 0) →
      (zeroLoc alpha < alpha.length ∧
        (∀ x ∈ alpha.getD (zeroLoc alpha) [], x = 0) ∧
        (∀ k, k < zeroLoc alpha → ∃ x ∈ alpha.getD k [], x ≠ 0)) ∧
      (∀ i : ℕ, dotProd (alpha.getD i []) (alpha.getD j2 []) = 0) ∧
      (∀ i ∈ uI, i ≠ zeroLoc alpha →
        (afterAggCover alpha nI i).getD j2 false = false) ∧
      afterAggCover alpha nI (zeroLoc alpha) =
        initialCover alpha.length nI (zeroLoc alpha) := by
  intro alpha uI nI j2 hpre hne2 hj2 hzero
  refine ⟨zeroLoc_spec alpha hpre, fun i => dotProd_zero_right _ _ hzero, ?_, ?_⟩
  · intro i hiu hnei
    have hdot : dotProd (alpha.getD i []) (alpha.getD j2 []) = 0 :=
      dotProd_zero_right _ _ hzero
    rw [afterAgg_getD alpha nI i j2 hpre hnei hj2, decide_eq_true hne2,
      decide_eq_true hdot]
    simp
  · unfold afterAggCover
    rw [if_neg]
    rintro ⟨-, hzl⟩
    exact hzl rfl

/-- C10 witness: the matrix [[0,0],[0,0],[1,1]] has two zero rows; the first
is identified as zero_loc, row 1 has zero dot product with every row and is
dropped from the cover of must-certify term 2, and term 0's cover is not
reduced. -/
theorem C10_extra_zero_rows_witness :
    (zeroLoc [[(0 : ℚ), 0], [0, 0], [1, 1]] < 3 ∧
      (∀ x ∈ [[(0 : ℚ), 0], [0, 0], [1, 1]].getD
        (zeroLoc [[(0 : ℚ), 0], [0, 0], [1, 1]]) [], x = 0) ∧
      (∀ k, k < zeroLoc [[(0 : ℚ), 0], [0, 0], [1, 1]] →
        ∃ x ∈ [[(0 : ℚ), 0], [0, 0], [1, 1]].getD k [], x ≠ 0)) ∧
    (∀ i : ℕ, dotProd ([[(0 : ℚ), 0], [0, 0], [1, 1]].getD i [])
      ([[(0 : ℚ), 0], [0, 0], [1, 1]].getD 1 []) = 0) ∧
    (∀ i ∈ [2], i ≠ zeroLoc [[(0 : ℚ), 0], [0, 0], [1, 1]] →
      (afterAggCover [[(0 : ℚ), 0], [0, 0], [1, 1]] [] i).getD 1 false = false) ∧
    afterAggCover [[(0 : ℚ), 0], [0, 0], [1, 1]] []
        (zeroLoc [[(0 : ℚ), 0], [0, 0], [1, 1]]) =
      initialCover 3 [] (zeroLoc [[(0 : ℚ), 0], [0, 0], [1, 1]]) :=
  C10_extra_zero_rows [[(0 : ℚ), 0], [0, 0], [1, 1]] [2] [] 1
    (by simp [aggPrecond, allNonneg, rowSum, List.min?])
    (by simp [zeroLoc, List.findIdx, List.findIdx.go, rowSum])
    (by decide) (by simp [List.getD])

/-- C4: with a nonempty cover, the trivial-cone elimination empties term i's
cover exactly when the auxiliary solve of (min t : (alpha_cover - alpha_i) x
<= t, A x + b in K) returns solved status with value strictly below -100; a
solved value at or above -100, or any non-solved status, leaves the cover
unchanged. -/
theorem C4_trivial_cone_elimination :
    ∀ (solve : List (List ℚ) → Option ℚ) (alpha : List (List ℚ)) (i : ℕ) (cov : List Bool),
      cov.any id = true →
      ((elimStep solve alpha i cov = List.replicate cov.length false) ↔
        ∃ v, solve (coverMat alpha i cov) = some v ∧ v < -100) ∧
      (∀ v, solve (coverMat alpha i cov) = some v → ¬v < -100 →
        elimStep solve alpha i cov = cov) ∧
      (solve (coverMat alpha i cov) = none → elimStep solve alpha i cov = cov) := by
  intro solve alpha i cov hany
  have hne : cov ≠ List.replicate cov.length false := any_ne_replicate_false cov hany
  refine ⟨?_, ?_, ?_⟩
  · constructor
    · intro h
      cases hsol : solve (coverMat alpha i cov) with
      | none =>
        rw [elimStep_none solve alpha i cov hany hsol] at h
        exact absurd h hne
      | some v =>
        rw [elimStep_some solve alpha i cov v hany hsol] at h
        by_cases hv : v < -100
        · exact ⟨v, rfl, hv⟩
        · rw [if_neg hv] at h
          exact absurd h hne
    · rintro ⟨v, hsol, hv⟩
      rw [elimStep_some solve alpha i cov v hany hsol, if_pos hv]
  · intro v hsol hnv
    rw [elimStep_some solve alpha i cov v hany hsol, if_neg hnv]
  · intro hsol
    exact elimStep_none solve alpha i cov hany hsol

/-- C4 witness: a solver reporting solved status with value -200 empties the
cover [false, true]. -/
theorem C4_trivial_cone_elimination_witness :
    ((elimStep (fun _ => some (-200)) [[(1 : ℚ)], [2]] 0 [false, true] =
        List.replicate 2 false) ↔
      ∃ v : ℚ, some ((-200 : ℚ)) = some v ∧ v < -100) ∧
    (∀ v : ℚ, some ((-200 : ℚ)) = some v → ¬v < -100 →
      elimStep (fun _ => some (-200)) [[(1 : ℚ)], [2]] 0 [false, true] = [false, true]) ∧
    (some ((-200 : ℚ)) = none →
      elimStep (fun _ => some (-200)) [[(1 : ℚ)], [2]] 0 [false, true] = [false, true]) :=
  C4_trivial_cone_elimination (fun _ => some (-200)) [[(1 : ℚ)], [2]] 0 [false, true]
    (by decide)

/-- Every entry of the all-false mask is false. -/
theorem CondSage.getD_replicate_false (n i : ℕ) :
    (List.replicate n false).getD i false = false := by
  by_cases h : i < n
  · rw [getD_eq_get _ _ i (by simpa using h)]
    simp
  · exact getD_eq_default _ _ _ (by simpa using Nat.le_of_not_lt h)

/-- The default cover of term i never covers i itself (line 473). -/
theorem CondSage.initialCover_getD_self (m : ℕ) (nI : List ℕ) (i : ℕ) :
    (initialCover m nI i).getD i false = false := by
  by_cases h : i < m
  · unfold initialCover
    rw [getD_map_range _ _ _ _ h]
    simp
  · apply getD_eq_default
    simp [initialCover, Nat.le_of_not_lt h]

/-- The aggressive reduction preserves the self-cover-free invariant. -/
theorem CondSage.afterAggCover_getD_self (alpha : List (List ℚ)) (nI : List ℕ) (i : ℕ) :
    (afterAggCover alpha nI i).getD i false = false := by
  unfold afterAggCover
  by_cases hc : aggPrecond alpha = true ∧ i ≠ zeroLoc alpha
  · rw [if_pos hc]
    by_cases h : i < alpha.length
    · unfold aggReduceCover
      rw [getD_map_range _ _ _ _ h, initialCover_getD_self]
      simp
    · apply getD_eq_default
      simp [aggReduceCover, Nat.le_of_not_lt h]
  · rw [if_neg hc]
    exact initialCover_getD_self _ _ _

/-- The trivial-cone elimination preserves the self-cover-free invariant. -/
theorem CondSage.elimStep_getD_self (solve : List (List ℚ) → Option ℚ)
    (alpha : List (List ℚ)) (i : ℕ) (cov : List Bool)
    (h : cov.getD i false = false) :
    (elimStep solve alpha i cov).getD i false = false := by
  by_cases hany : cov.any id = true
  · cases hsol : solve (coverMat alpha i cov) with
    | none =>
      rw [elimStep_none solve alpha i cov hany hsol]
      exact h
    | some v =>
      rw [elimStep_some solve alpha i cov v hany hsol]
      by_cases hv : v < -100
      · rw [if_pos hv]
        exact getD_replicate_false _ _
      · rw [if_neg hv]
        exact h
  · unfold elimStep
    rw [if_neg hany]
    exact h

/-- Looking up a key of an association list that pairs each key with a
function of itself. -/
theorem CondSage.lookup_map_self {α : Type} (uI : List ℕ) (f : ℕ → α) (i : ℕ)
    (hi : i ∈ uI) : (uI.map fun j => (j, f j)).lookup i = some (f i) := by
  induction uI with
  | nil => cases hi
  | cons j rest ih =>
    by_cases hij : i = j
    · subst hij
      simp [List.lookup]
    · have hb : (i == j) = false := beq_eq_false_iff_ne.mpr hij
      rcases List.mem_cons.mp hi with h | hmem
      · exact absurd h hij
      · simp [List.lookup, hb, ih hmem]

/-- Unfolding an association-list lookup at a cons cell. -/
theorem CondSage.lookup_cons (a k : ℕ) (b : CoverVal) (es : List (ℕ × CoverVal)) :
    ((k, b) :: es).lookup a = if a = k then some b else es.lookup a := by
  by_cases h : a = k
  · simp [List.lookup, h]
  · simp [List.lookup, beq_eq_false_iff_ne.mpr h, h]

/-- Unfolding updateVal at a cons cell. -/
theorem CondSage.updateVal_cons (k : ℕ) (u : CoverVal) (es : List (ℕ × CoverVal))
    (i : ℕ) (v : CoverVal) :
    updateVal ((k, u) :: es) i v =
      (if k = i then (k, v) else (k, u)) :: updateVal es i v := by
  by_cases h : k = i <;> simp [updateVal, h]

/-- Looking up after an in-place value replacement. -/
theorem CondSage.lookup_updateVal (d : List (ℕ × CoverVal)) (i j : ℕ) (v : CoverVal) :
    (updateVal d i v).lookup j =
      if j = i then (d.lookup i).map (fun _ => v) else d.lookup j := by
  induction d with
  | nil => by_cases hji : j = i <;> simp [updateVal, List.lookup, hji]
  | cons p es ih =>
    obtain ⟨k, u⟩ := p
    rw [updateVal_cons]
    by_cases hjk : j = k <;> by_cases hki : k = i
    · subst hjk
      subst hki
      rw [if_pos rfl, lookup_cons, if_pos rfl, if_pos rfl, lookup_cons, if_pos rfl]
      rfl
    · subst hjk
      rw [if_neg hki, lookup_cons, if_pos rfl, if_neg hki, lookup_cons, if_pos rfl]
    · subst hki
      rw [if_pos rfl, lookup_cons, if_neg hjk, ih, if_neg hjk, if_neg hjk,
        lookup_cons, if_neg hjk]
    · rw [if_neg hki, lookup_cons, if_neg hjk, ih]
      by_cases hji : j = i
      · rw [if_pos hji, if_pos hji, lookup_cons,
          if_neg (fun h : i = k => hki (h ▸ rfl))]
      · rw [if_neg hji, if_neg hji, lookup_cons, if_neg hjk]

/-- Bind of a successful Except computation. -/
theorem CondSage.except_bind_ok {α β : Type} (s : α) (g : α → Except String β) :
    (Except.ok s >>= g) = g s := rfl

/-- Bind of a failed Except computation. -/
theorem CondSage.except_bind_error {α β : Type} (e : String) (g : α → Except String β) :
    ((Except.error e : Except String α) >>= g) = Except.error e := rfl

/-- verifyStep on a missing key. -/
theorem CondSage.verifyStep_missing (d : List (ℕ × CoverVal)) (w : List ℕ) (i : ℕ)
    (hl : d.lookup i = none) :
    verifyStep (d, w) i = Except.error "Required key missing from expcovers." := by
  simp [verifyStep, hl]

/-- verifyStep on a value of the wrong datatype. -/
theorem CondSage.verifyStep_wrongType (d : List (ℕ × CoverVal)) (w : List ℕ) (i : ℕ)
    (hl : d.lookup i = some CoverVal.wrongType) :
    verifyStep (d, w) i = Except.error "A value in expcovers was the wrong datatype." := by
  simp [verifyStep, hl]

/-- verifyStep on a boolean mask too short to index position i. -/
theorem CondSage.verifyStep_short (d : List (ℕ × CoverVal)) (w : List ℕ) (i : ℕ)
    (mask : List Bool) (hl : d.lookup i = some (CoverVal.boolMask mask))
    (h : ¬i < mask.length) :
    verifyStep (d, w) i = Except.error "IndexError" := by
  simp [verifyStep, hl, h]

/-- verifyStep on a true self-cover entry: corrected, with a warning. -/
theorem CondSage.verifyStep_selfTrue (d : List (ℕ × CoverVal)) (w : List ℕ) (i : ℕ)
    (mask : List Bool) (hl : d.lookup i = some (CoverVal.boolMask mask))
    (h : i < mask.length) (hget : mask.get ⟨i, h⟩ = true) :
    verifyStep (d, w) i =
      Except.ok (updateVal d i (CoverVal.boolMask (mask.set i false)), w ++ [i]) := by
  simp [verifyStep, hl, h, hget]
  simpa using hget

/-- verifyStep on a false self-cover entry: no change. -/
theorem CondSage.verifyStep_selfFalse (d : List (ℕ × CoverVal)) (w : List ℕ) (i : ℕ)
    (mask : List Bool) (hl : d.lookup i = some (CoverVal.boolMask mask))
    (h : i < mask.length) (hget : mask.get ⟨i, h⟩ = false) :
    verifyStep (d, w) i = Except.ok (d, w) := by
  simp [verifyStep, hl, h, hget]
  simpa using hget

/-- Inversion of a successful verifyStep. -/
theorem CondSage.verifyStep_ok_inv (d : List (ℕ × CoverVal)) (w : List ℕ) (i : ℕ)
    (dw : List (ℕ × CoverVal) × List ℕ) (h : verifyStep (d, w) i = Except.ok dw) :
    ∃ mask, d.lookup i = some (CoverVal.boolMask mask) ∧ i < mask.length ∧
      ((mask.getD i false = true ∧
        dw = (updateVal d i (CoverVal.boolMask (mask.set i false)), w ++ [i])) ∨
       (mask.getD i false = false ∧ dw = (d, w))) := by
  cases hl : d.lookup i with
  | none =>
    rw [verifyStep_missing d w i hl] at h
    cases h
  | some val =>
    cases val with
    | wrongType =>
      rw [verifyStep_wrongType d w i hl] at h
      cases h
    | boolMask mask =>
      by_cases hlen : i < mask.length
      · refine ⟨mask, rfl, hlen, ?_⟩
        cases hget : mask.get ⟨i, hlen⟩ with
        | true =>
          rw [verifyStep_selfTrue d w i mask hl hlen hget] at h
          left
          refine ⟨?_, (Except.ok.inj h).symm⟩
          rw [getD_eq_get _ _ _ hlen]
          exact hget
        | false =>
          rw [verifyStep_selfFalse d w i mask hl hlen hget] at h
          right
          refine ⟨?_, (Except.ok.inj h).symm⟩
          rw [getD_eq_get _ _ _ hlen]
          exact hget
      · rw [verifyStep_short d w i mask hl hlen] at h
        cases h

/-- Replacing a mask by a same-length mask preserves key usability. -/
theorem CondSage.keyOk_updateVal_iff (d : List (ℕ × CoverVal)) (i : ℕ) (mask : List Bool)
    (hl : d.lookup i = some (CoverVal.boolMask mask)) (j : ℕ) :
    keyOk (updateVal d i (CoverVal.boolMask (mask.set i false))) j ↔ keyOk d j := by
  unfold keyOk
  rw [lookup_updateVal]
  by_cases hji : j = i
  · subst hji
    rw [if_pos rfl, hl]
    simp [List.length_set]
  · rw [if_neg hji]

/-- The verification loop succeeds exactly when every must-certify key is
present with a long-enough boolean mask. -/
theorem CondSage.foldVerify_ok_iff :
    ∀ (uI : List ℕ) (d : List (ℕ × CoverVal)) (w : List ℕ),
      (∃ out, uI.foldlM verifyStep (d, w) = Except.ok out) ↔ ∀ i ∈ uI, keyOk d i := by
  intro uI
  induction uI with
  | nil =>
    intro d w
    refine ⟨fun _ i hi => absurd hi (List.not_mem_nil i), fun _ => ⟨(d, w), rfl⟩⟩
  | cons i rest ih =>
    intro d w
    rw [List.foldlM_cons]
    by_cases hk : keyOk d i
    · obtain ⟨mask, hl, hlen⟩ := hk
      cases hget : mask.get ⟨i, hlen⟩ with
      | true =>
        rw [verifyStep_selfTrue d w i mask hl hlen hget, except_bind_ok, ih]
        constructor
        · intro hall j hj
          rcases List.mem_cons.mp hj with rfl | hj2
          · exact ⟨mask, hl, hlen⟩
          · exact (keyOk_updateVal_iff d i mask hl j).mp (hall j hj2)
        · intro hall j hj
          exact (keyOk_updateVal_iff d i mask hl j).mpr (hall j (List.mem_cons_of_mem i hj))
      | false =>
        rw [verifyStep_selfFalse d w i mask hl hlen hget, except_bind_ok, ih]
        constructor
        · intro hall j hj
          rcases List.mem_cons.mp hj with rfl | hj2
          · exact ⟨mask, hl, hlen⟩
          · exact hall j hj2
        · intro hall j hj
          exact hall j (List.mem_cons_of_mem i hj)
    · have herr : ∃ s, verifyStep (d, w) i = Except.error s := by
        cases hl : d.lookup i with
        | none => exact ⟨_, verifyStep_missing d w i hl⟩
        | some val =>
          cases val with
          | wrongType => exact ⟨_, verifyStep_wrongType d w i hl⟩
          | boolMask mask =>
            by_cases hlen : i < mask.length
            · exact absurd ⟨mask, hl, hlen⟩ hk
            · exact ⟨_, verifyStep_short d w i mask hl hlen⟩
      obtain ⟨s, hs⟩ := herr
      rw [hs, except_bind_error]
      constructor
      · rintro ⟨out, hout⟩
        cases hout
      · intro hall
        exact absurd (hall i (List.mem_cons_self i rest)) hk

/-- The verification loop only ever adds warned keys. -/
theorem CondSage.foldVerify_warn_mono :
    ∀ (uI : List ℕ) (dw out : List (ℕ × CoverVal) × List ℕ),
      uI.foldlM verifyStep dw = Except.ok out → ∀ x ∈ dw.2, x ∈ out.2 := by
  intro uI
  induction uI with
  | nil =>
    intro dw out h x hx
    have h2 : dw = out := Except.ok.inj h
    rw [← h2]
    exact hx
  | cons j rest ih =>
    intro dw out h x hx
    rw [List.foldlM_cons] at h
    cases hstep : verifyStep dw j with
    | error s =>
      rw [hstep, except_bind_error] at h
      cases h
    | ok dw1 =>
      rw [hstep, except_bind_ok] at h
      obtain ⟨mj, hlj, hlenj, hcase⟩ := verifyStep_ok_inv dw.1 dw.2 j dw1 hstep
      rcases hcase with ⟨-, rfl⟩ | ⟨-, rfl⟩
      · exact ih _ _ h x (List.mem_append_left _ hx)
      · exact ih _ _ h x hx

/-- A key whose mask already has a false self-entry keeps that property
through the rest of the verification loop. -/
theorem CondSage.foldVerify_preserve_self :
    ∀ (uI : List ℕ) (dw out : List (ℕ × CoverVal) × List ℕ) (i : ℕ) (mask : List Bool),
      uI.foldlM verifyStep dw = Except.ok out →
      dw.1.lookup i = some (CoverVal.boolMask mask) → mask.getD i false = false →
      ∃ mask2, out.1.lookup i = some (CoverVal.boolMask mask2) ∧
        mask2.getD i false = false := by
  intro uI
  induction uI with
  | nil =>
    intro dw out i mask h hl hfalse
    have h2 : dw = out := Except.ok.inj h
    rw [← h2]
    exact ⟨mask, hl, hfalse⟩
  | cons j rest ih =>
    intro dw out i mask h hl hfalse
    rw [List.foldlM_cons] at h
    cases hstep : verifyStep dw j with
    | error s =>
      rw [hstep, except_bind_error] at h
      cases h
    | ok dw1 =>
      rw [hstep, except_bind_ok] at h
      obtain ⟨mj, hlj, hlenj, hcase⟩ := verifyStep_ok_inv dw.1 dw.2 j dw1 hstep
      rcases hcase with ⟨hgt, rfl⟩ | ⟨hgf, rfl⟩
      · by_cases hij : i = j
        · subst hij
          rw [hl] at hlj
          have hmm := CoverVal.boolMask.inj (Option.some.inj hlj)
          rw [← hmm] at hgt
          rw [hfalse] at hgt
          exact Bool.noConfusion hgt
        · apply ih _ _ i mask h _ hfalse
          rw [lookup_updateVal, if_neg hij]
          exact hl
      · exact ih _ _ i mask h hl hfalse

/-- After a successful verification loop every must-certify key holds a
boolean mask whose self-entry is false. -/
theorem CondSage.foldVerify_self_false :
    ∀ (uI : List ℕ) (dw out : List (ℕ × CoverVal) × List ℕ) (i : ℕ),
      uI.foldlM verifyStep dw = Except.ok out → i ∈ uI →
      ∃ mask2, out.1.lookup i = some (CoverVal.boolMask mask2) ∧
        mask2.getD i false = false := by
  intro uI
  induction uI with
  | nil =>
    intro dw out i h hi
    cases hi
  | cons j rest ih =>
    intro dw out i h hi
    rw [List.foldlM_cons] at h
    cases hstep : verifyStep dw j with
    | error s =>
      rw [hstep, except_bind_error] at h
      cases h
    | ok dw1 =>
      rw [hstep, except_bind_ok] at h
      obtain ⟨mj, hlj, hlenj, hcase⟩ := verifyStep_ok_inv dw.1 dw.2 j dw1 hstep
      by_cases hij : i = j
      · subst hij
        rcases hcase with ⟨hgt, rfl⟩ | ⟨hgf, rfl⟩
        · apply foldVerify_preserve_self rest _ out i (mj.set i false) h
          · rw [lookup_updateVal, if_pos rfl, hlj]
            rfl
          · rw [getD_eq_get _ _ i (by simpa using hlenj)]
            simp
        · exact foldVerify_preserve_self rest _ out i mj h hlj hgf
      · rcases List.mem_cons.mp hi with h' | hmem
        · exact absurd h' hij
        · exact ih _ _ i h hmem

/-- A true in-bounds self-cover entry of a must-certify key gets its key
warned by the verification loop. -/
theorem CondSage.foldVerify_warns :
    ∀ (uI : List ℕ) (dw out : List (ℕ × CoverVal) × List ℕ) (i : ℕ) (mask : List Bool),
      uI.foldlM verifyStep dw = Except.ok out → i ∈ uI →
      dw.1.lookup i = some (CoverVal.boolMask mask) → mask.getD i false = true →
      i ∈ out.2 := by
  intro uI
  induction uI with
  | nil =>
    intro dw out i mask h hi
    cases hi
  | cons j rest ih =>
    intro dw out i mask h hi hl hTrue
    rw [List.foldlM_cons] at h
    cases hstep : verifyStep dw j with
    | error s =>
      rw [hstep, except_bind_error] at h
      cases h
    | ok dw1 =>
      rw [hstep, except_bind_ok] at h
      obtain ⟨mj, hlj, hlenj, hcase⟩ := verifyStep_ok_inv dw.1 dw.2 j dw1 hstep
      by_cases hij : i = j
      · subst hij
        rw [hl] at hlj
        have hmm := CoverVal.boolMask.inj (Option.some.inj hlj)
        rcases hcase with ⟨hgt, rfl⟩ | ⟨hgf, rfl⟩
        · exact foldVerify_warn_mono rest _ out h i (List.mem_append_right _ (by simp))
        · rw [← hmm, hTrue] at hgf
          exact Bool.noConfusion hgf
      · rcases List.mem_cons.mp hi with h' | hmem
        · exact absurd h' hij
        · rcases hcase with ⟨hgt, rfl⟩ | ⟨hgf, rfl⟩
          · apply ih _ _ i mask h hmem _ hTrue
            rw [lookup_updateVal, if_neg hij]
            exact hl
          · exact ih _ _ i mask h hmem hl hTrue

/-- C2 counterexample: for c = [constant -1, constant 0] the three groups are
neither pairwise disjoint (index 0 is both must-certify and definite-negative)
nor do they cover all indices (index 1, a constant zero, is in no group). -/
theorem C2_cex :
    (0 ∈ U_I [⟨true, -1⟩, ⟨true, 0⟩] ∧ 0 ∈ N_I [⟨true, -1⟩, ⟨true, 0⟩]) ∧
    (1 ∉ U_I [⟨true, -1⟩, ⟨true, 0⟩] ∧ 1 ∉ N_I [⟨true, -1⟩, ⟨true, 0⟩] ∧
      1 ∉ P_I [⟨true, -1⟩, ⟨true, 0⟩]) := by
  decide

/-- C2 (amended): membership in each group is exactly as the claim states
(must-certify iff non-constant or constant-and-negative, definite-negative iff
constant and strictly negative, definite-positive iff constant and strictly
positive); the definite-negative group is contained in the must-certify group,
must-certify and definite-positive are disjoint, and their union is exactly
the indices whose entry is non-constant or has nonzero constant value. -/
theorem C2_classification (c : List ScalarExpr) (i : ℕ) (hi : i < c.length) :
    (i ∈ U_I c ↔ ((c.getD i ⟨true, 0⟩).is_const = false ∨
        ((c.getD i ⟨true, 0⟩).is_const = true ∧ (c.getD i ⟨true, 0⟩).offset < 0))) ∧
    (i ∈ N_I c ↔ ((c.getD i ⟨true, 0⟩).is_const = true ∧ (c.getD i ⟨true, 0⟩).offset < 0)) ∧
    (i ∈ P_I c ↔ ((c.getD i ⟨true, 0⟩).is_const = true ∧ 0 < (c.getD i ⟨true, 0⟩).offset)) ∧
    (i ∈ N_I c → i ∈ U_I c) ∧
    ¬(i ∈ U_I c ∧ i ∈ P_I c) ∧
    ((i ∈ U_I c ∨ i ∈ P_I c) ↔ ((c.getD i ⟨true, 0⟩).is_const = false ∨
        (c.getD i ⟨true, 0⟩).offset ≠ 0)) := by
  have hmem : ∀ p : ℕ → Bool, i ∈ (List.range c.length).filter p ↔ p i = true := by
    intro p
    simp [List.mem_filter, List.mem_range, hi]
  have hU : i ∈ U_I c ↔
      (!(c.getD i ⟨true, 0⟩).is_const || decide ((c.getD i ⟨true, 0⟩).offset < 0)) = true := by
    unfold U_I
    exact hmem _
  have hN : i ∈ N_I c ↔
      ((c.getD i ⟨true, 0⟩).is_const && decide ((c.getD i ⟨true, 0⟩).offset < 0)) = true := by
    unfold N_I
    exact hmem _
  have hP : i ∈ P_I c ↔
      ((c.getD i ⟨true, 0⟩).is_const && decide ((c.getD i ⟨true, 0⟩).offset > 0)) = true := by
    unfold P_I
    exact hmem _
  rw [hU, hN, hP]
  generalize c.getD i ⟨true, 0⟩ = e
  cases hb : e.is_const
  · simp [hb]
  · rcases lt_trichotomy e.offset 0 with ho | ho | ho
    · simp [hb, ho, lt_asymm ho, ne_of_lt ho]
    · simp [hb, ho]
    · simp [hb, ho, lt_asymm ho, ne_of_gt ho]

/-- C2 witness: the amended classification theorem at a concrete input. -/
theorem C2_classification_witness :
    (0 ∈ U_I cWitness ↔ ((cWitness.getD 0 ⟨true, 0⟩).is_const = false ∨
        ((cWitness.getD 0 ⟨true, 0⟩).is_const = true ∧ (cWitness.getD 0 ⟨true, 0⟩).offset < 0))) ∧
    (0 ∈ N_I cWitness ↔ ((cWitness.getD 0 ⟨true, 0⟩).is_const = true ∧
        (cWitness.getD 0 ⟨true, 0⟩).offset < 0)) ∧
    (0 ∈ P_I cWitness ↔ ((cWitness.getD 0 ⟨true, 0⟩).is_const = true ∧
        0 < (cWitness.getD 0 ⟨true, 0⟩).offset)) ∧
    (0 ∈ N_I cWitness → 0 ∈ U_I cWitness) ∧
    ¬(0 ∈ U_I cWitness ∧ 0 ∈ P_I cWitness) ∧
    ((0 ∈ U_I cWitness ∨ 0 ∈ P_I cWitness) ↔ ((cWitness.getD 0 ⟨true, 0⟩).is_const = false ∨
        (cWitness.getD 0 ⟨true, 0⟩).offset ≠ 0)) :=
  C2_classification cWitness 0 (by decide)

/-- C5: however the cover helper is constructed — the default pipeline or a
caller-supplied dict — a successful construction leaves the self-cover entry
expcovers[i][i] false for every must-certify index i. -/
theorem C5_no_self_cover :
    ∀ (solve : List (List ℚ) → Option ℚ) (alpha : List (List ℚ))
      (uI nI : List ℕ) (arg : CoverArg) (out : List (ℕ × CoverVal) × List ℕ) (i : ℕ),
      buildExpCovers solve alpha uI nI arg = Except.ok out → i ∈ uI →
      ∃ mask, out.1.lookup i = some (CoverVal.boolMask mask) ∧
        mask.getD i false = false := by
  intro solve alpha uI nI arg out i h hi
  cases arg with
  | otherArg => cases h
  | dict d => exact foldVerify_self_false uI (d, []) out i h hi
  | noneArg =>
    have h2 : out = ((defaultExpCovers solve alpha uI nI).map
        fun p => (p.1, CoverVal.boolMask p.2), []) := (Except.ok.inj h).symm
    rw [h2]
    have hmaps : (defaultExpCovers solve alpha uI nI).map
        (fun p => (p.1, CoverVal.boolMask p.2)) =
        uI.map fun j =>
          (j, CoverVal.boolMask (elimStep solve alpha j (afterAggCover alpha nI j))) := by
      unfold defaultExpCovers
      rw [List.map_map]
      rfl
    show ∃ mask, ((defaultExpCovers solve alpha uI nI).map
        (fun p => (p.1, CoverVal.boolMask p.2))).lookup i =
          some (CoverVal.boolMask mask) ∧ mask.getD i false = false
    rw [hmaps, lookup_map_self uI _ i hi]
    exact ⟨_, rfl,
      elimStep_getD_self solve alpha i _ (afterAggCover_getD_self alpha nI i)⟩

/-- C5 witness: the theorem applied to a supplied dict whose only mask had a
true self-cover entry; construction succeeds and the final mask is
self-cover-free. -/
theorem C5_no_self_cover_witness :
    ∃ mask, ([((0 : ℕ), CoverVal.boolMask [false, true])], ([0] : List ℕ)).1.lookup 0 =
        some (CoverVal.boolMask mask) ∧ mask.getD 0 false = false :=
  C5_no_self_cover (fun _ => none) [] [0] []
    (CoverArg.dict [(0, CoverVal.boolMask [true, true])])
    ([(0, CoverVal.boolMask [false, true])], [0]) 0 rfl (by decide)

/-- C6 counterexample: a supplied cover map that is a dict, has every
must-certify index as a key, and whose value is a boolean numpy array,
nevertheless raises (numpy IndexError: the mask is too short to index the
self-cover entry), contradicting the claimed "iff". -/
theorem C6_cex :
    buildExpCovers (fun _ => none) [] [0] []
        (CoverArg.dict [(0, CoverVal.boolMask [])]) = Except.error "IndexError" ∧
    [((0 : ℕ), CoverVal.boolMask [])].lookup 0 = some (CoverVal.boolMask []) :=
  ⟨rfl, rfl⟩

/-- C6 (amended): a caller-supplied cover map raises a hard construction-time
error iff it is not a dict, or some must-certify index is missing as a key,
or some value for a must-certify key is not a boolean mask, or the mask for
some must-certify key i is too short to index position i; a true in-bounds
self-covering entry is never an error — it is corrected to false and the key
is warned. -/
theorem C6_supplied_cover_validation :
    (∀ (solve : List (List ℚ) → Option ℚ) (alpha : List (List ℚ)) (uI nI : List ℕ),
      ∃ s, buildExpCovers solve alpha uI nI CoverArg.otherArg = Except.error s) ∧
    (∀ (solve : List (List ℚ) → Option ℚ) (alpha : List (List ℚ)) (uI nI : List ℕ)
      (d : List (ℕ × CoverVal)),
      ((∃ s, buildExpCovers solve alpha uI nI (CoverArg.dict d) = Except.error s) ↔
        ¬∀ i ∈ uI, keyOk d i)) ∧
    (∀ (uI : List ℕ) (d : List (ℕ × CoverVal))
      (out : List (ℕ × CoverVal) × List ℕ) (i : ℕ) (mask : List Bool),
      verifyExpCovers uI d = Except.ok out → i ∈ uI →
      d.lookup i = some (CoverVal.boolMask mask) → mask.getD i false = true →
      i ∈ out.2 ∧ ∃ mask2, out.1.lookup i = some (CoverVal.boolMask mask2) ∧
        mask2.getD i false = false) := by
  refine ⟨fun solve alpha uI nI => ⟨_, rfl⟩, ?_, ?_⟩
  · intro solve alpha uI nI d
    have hiff := foldVerify_ok_iff uI d []
    constructor
    · rintro ⟨s, hs⟩ hall
      obtain ⟨out, hout⟩ := hiff.mpr hall
      have hs2 : uI.foldlM verifyStep (d, []) = Except.error s := hs
      rw [hout] at hs2
      cases hs2
    · intro hnall
      cases hres : buildExpCovers solve alpha uI nI (CoverArg.dict d) with
      | error s => exact ⟨s, rfl⟩
      | ok out => exact absurd (hiff.mp ⟨out, hres⟩) hnall
  · intro uI d out i mask hok hi hl hTrue
    exact ⟨foldVerify_warns uI (d, []) out i mask hok hi hl hTrue,
      foldVerify_self_false uI (d, []) out i hok hi⟩

/-- C6 witness: the amended validation theorem at concrete inputs — a
non-dict argument errors, a wrong-datatype value errors, and a true
self-cover entry is warned and corrected rather than rejected. -/
theorem C6_supplied_cover_validation_witness :
    (∃ s, buildExpCovers (fun _ => none) [] [0] [] CoverArg.otherArg =
      Except.error s) ∧
    ((∃ s, buildExpCovers (fun _ => none) [] [0] []
        (CoverArg.dict [(0, CoverVal.wrongType)]) = Except.error s) ↔
      ¬∀ i ∈ [0], keyOk [(0, CoverVal.wrongType)] i) ∧
    (0 ∈ ([((0 : ℕ), CoverVal.boolMask [false, true])], ([0] : List ℕ)).2 ∧
      ∃ mask2, ([((0 : ℕ), CoverVal.boolMask [false, true])], ([0] : List ℕ)).1.lookup 0 =
        some (CoverVal.boolMask mask2) ∧ mask2.getD 0 false = false) :=
  ⟨C6_supplied_cover_validation.1 (fun _ => none) [] [0] [],
    C6_supplied_cover_validation.2.1 (fun _ => none) [] [0] [] [(0, CoverVal.wrongType)],
    C6_supplied_cover_validation.2.2 [0] [(0, CoverVal.boolMask [true, true])]
      ([(0, CoverVal.boolMask [false, true])], [0]) 0 [true, true]
      rfl (by decide) rfl rfl⟩

/-- The initial element bounds a max-fold from below. -/
theorem CondSage.init_le_foldl_max (x : ℚ) (xs : List ℚ) : x ≤ xs.foldl max x := by
  induction xs generalizing x with
  | nil => exact le_refl x
  | cons y ys ih => exact le_trans (le_max_left x y) (ih (max x y))

/-- Every list element bounds a max-fold from below. -/
theorem CondSage.mem_le_foldl_max (x : ℚ) (xs : List ℚ) :
    ∀ q ∈ xs, q ≤ xs.foldl max x := by
  induction xs generalizing x with
  | nil =>
    intro q hq
    cases hq
  | cons y ys ih =>
    intro q hq
    rcases List.mem_cons.mp hq with rfl | hq2
    · exact le_trans (le_max_right x q) (init_le_foldl_max (max x q) ys)
    · exact ih (max x y) q hq2

/-- A max-fold returns the initial element or a list element. -/
theorem CondSage.foldl_max_mem (x : ℚ) (xs : List ℚ) :
    xs.foldl max x = x ∨ xs.foldl max x ∈ xs := by
  induction xs generalizing x with
  | nil =>
    left
    rfl
  | cons y ys ih =>
    rcases ih (max x y) with h | h
    · rcases max_choice x y with hm | hm
      · left
        rw [List.foldl_cons, h, hm]
      · right
        rw [List.foldl_cons, h, hm]
        exact List.mem_cons_self y ys
    · right
      rw [List.foldl_cons]
      exact List.mem_cons_of_mem y h

/-- maxList of a nonempty list is one of its elements. -/
theorem CondSage.maxList_mem (l : List ℚ) (h : l ≠ []) : maxList l ∈ l := by
  cases l with
  | nil => exact absurd rfl h
  | cons x xs =>
    show xs.foldl max x ∈ x :: xs
    rcases foldl_max_mem x xs with h2 | h2
    · rw [h2]
      exact List.mem_cons_self x xs
    · exact List.mem_cons_of_mem x h2

/-- maxList bounds every element of its list. -/
theorem CondSage.le_maxList (l : List ℚ) : ∀ q ∈ l, q ≤ maxList l := by
  cases l with
  | nil =>
    intro q hq
    cases hq
  | cons x xs =>
    intro q hq
    rcases List.mem_cons.mp hq with rfl | hq2
    · exact init_le_foldl_max q xs
    · exact mem_le_foldl_max x xs q hq2

/-- With no infinite entry, a nonempty violation list has a nonempty finite
part. -/
theorem CondSage.finiteViols_ne_nil (l : List AgeViol) (hne : l ≠ [])
    (hfin : l.any AgeViol.isInf = false) : finiteViols l ≠ [] := by
  cases l with
  | nil => exact absurd rfl hne
  | cons v vs =>
    cases v with
    | fin q => simp [finiteViols]
    | infinite => simp [AgeViol.isInf] at hfin

/-- Blocks emitted per must-certify term contain no global sum block. -/
theorem CondSage.countP_triples (uI : List ℕ) :
    (uI.flatMap fun i =>
      [Block.relEnt i, Block.linEq i, Block.lambdaDom i]).countP
        Block.isGlobalSum = 0 := by
  induction uI with
  | nil => rfl
  | cons i rest ih =>
    rw [List.flatMap_cons, List.countP_append, ih]
    rfl

/-- C7: in the degenerate case m = 1 the primal conic_form emits the single
constraint c >= 0 (one nonnegative-orthant block on the coefficient
entries), and violation returns the norm of the negative part of c: -1
gives violation exactly 1 and 2 gives violation exactly 0. -/
theorem C7_degenerate_m1 :
    (∀ (uI nI : List ℕ) (av : ℕ → ℕ → ℚ) (cval : ℕ → ℚ),
      conicForm 1 uI nI av cval = [Block.nonneg [cval 0]]) ∧
    (∀ c : List ℚ, violationM1 c = linfNorm (c.map fun x => min x 0)) ∧
    violationM1 [-1] = 1 ∧ violationM1 [2] = 0 := by
  refine ⟨?_, ?_, ?_, ?_⟩
  · intro uI nI av cval
    simp [conicForm]
    rfl
  · intro c
    unfold violationM1
    congr 1
    apply List.map_congr_left
    intro x hx
    rcases le_or_lt 0 x with h | h
    · rw [if_pos h]
      exact (min_eq_right h).symm
    · rw [if_neg (not_le.mpr h)]
      exact (min_eq_left (le_of_lt h)).symm
  · norm_num [violationM1, linfNorm]
  · norm_num [violationM1, linfNorm]

/-- C1: for m > 1, conic_form emits exactly one global zero-cone equality
block, namely the sum-to-c block; its rows all hold exactly when the sum of
the aligned age vectors over the must-certify set equals c at every index
outside the definite-negative set; and at each definite-negative index i the
aligned age vector of term i has its i-th entry fixed to the constant
coefficient value, whatever the decomposition variables are. -/
theorem C1_global_sum_block :
    ∀ (m : ℕ) (c : List ScalarExpr) (cval : ℕ → ℚ) (covOf : ℕ → List Bool)
      (cvars : ℕ → ℕ → ℚ),
      1 < m →
      (∀ i, (c.getD i ⟨true, 0⟩).is_const = true →
        cval i = (c.getD i ⟨true, 0⟩).offset) →
      ((conicForm m (U_I c) (N_I c)
          (buildAlignedAgeVectors m (N_I c) covOf cval cvars) cval).countP
          Block.isGlobalSum = 1) ∧
      (Block.globalSum (sumToCRows m (U_I c) (N_I c)
          (buildAlignedAgeVectors m (N_I c) covOf cval cvars) cval) ∈
        conicForm m (U_I c) (N_I c)
          (buildAlignedAgeVectors m (N_I c) covOf cval cvars) cval) ∧
      ((∀ p ∈ sumToCRows m (U_I c) (N_I c)
          (buildAlignedAgeVectors m (N_I c) covOf cval cvars) cval,
            p.1 = p.2) ↔
        ∀ j, j < m → j ∉ N_I c →
          ((U_I c).map fun i =>
            buildAlignedAgeVectors m (N_I c) covOf cval cvars i j).sum = cval j) ∧
      (∀ i ∈ N_I c, buildAlignedAgeVectors m (N_I c) covOf cval cvars i i =
        (c.getD i ⟨true, 0⟩).offset) := by
  intro m c cval covOf cvars hm hcons
  refine ⟨?_, ?_, ?_, ?_⟩
  · rw [conicForm, if_pos hm, List.countP_append, countP_triples]
    rfl
  · rw [conicForm, if_pos hm]
    exact List.mem_append_right _ (List.mem_singleton.mpr rfl)
  · constructor
    · intro h j hj hnj
      exact h _ (List.mem_map_of_mem _ (List.mem_filter.mpr
        ⟨List.mem_range.mpr hj, by simpa using hnj⟩))
    · rintro h p hp
      obtain ⟨j, hj, rfl⟩ := List.mem_map.mp hp
      obtain ⟨hjr, hjp⟩ := List.mem_filter.mp hj
      exact h j (List.mem_range.mp hjr) (by simpa using hjp)
  · intro i hi
    have hpred := (List.mem_filter.mp hi).2
    simp only [Bool.and_eq_true, decide_eq_true_eq] at hpred
    unfold buildAlignedAgeVectors ageVector
    rw [if_pos rfl, if_pos hi]
    exact hcons i hpred.1

/-- C8: for the rough primal violation with m > 1, when every per-term AGE
violation is finite the total is the clipped sum-to-c shortfall norm plus
the maximum (a genuine maximum: attained and an upper bound) of the
per-term violations, and when some per-term violation is infinite the total
is the shortfall norm plus the sum of the finite violations plus the exact
projection distance (the fallback solve). -/
theorem C8_rough_primal_aggregation :
    ∀ (m : ℕ) (uI : List ℕ) (av : ℕ → ℕ → ℚ) (cval : ℕ → ℚ)
      (ageViols : List AgeViol) (projVal : ℚ),
      ageViols ≠ [] →
      (ageViols.any AgeViol.isInf = false →
        primalRoughViolation m uI av cval ageViols projVal =
          sumToCViol m uI av cval + maxList (finiteViols ageViols) ∧
        maxList (finiteViols ageViols) ∈ finiteViols ageViols ∧
        ∀ q ∈ finiteViols ageViols, q ≤ maxList (finiteViols ageViols)) ∧
      (ageViols.any AgeViol.isInf = true →
        primalRoughViolation m uI av cval ageViols projVal =
          sumToCViol m uI av cval + (finiteViols ageViols).sum + projVal) := by
  intro m uI av cval ageViols projVal hne
  constructor
  · intro hfin
    refine ⟨?_, maxList_mem _ (finiteViols_ne_nil ageViols hne hfin),
      le_maxList _⟩
    unfold primalRoughViolation
    rw [hfin]
    simp
  · intro hinf
    unfold primalRoughViolation
    rw [hinf]
    simp

/-- C8 witness: the aggregation theorem on the singleton finite violation
list [2]. -/
theorem C8_rough_primal_aggregation_witness :
    (([AgeViol.fin 2].any AgeViol.isInf = false →
      primalRoughViolation 1 [0] (fun _ _ => 0) (fun _ => 0) [AgeViol.fin 2] 0 =
        sumToCViol 1 [0] (fun _ _ => 0) (fun _ => 0) +
          maxList (finiteViols [AgeViol.fin 2]) ∧
      maxList (finiteViols [AgeViol.fin 2]) ∈ finiteViols [AgeViol.fin 2] ∧
      ∀ q ∈ finiteViols [AgeViol.fin 2],
        q ≤ maxList (finiteViols [AgeViol.fin 2])) ∧
    ([AgeViol.fin 2].any AgeViol.isInf = true →
      primalRoughViolation 1 [0] (fun _ _ => 0) (fun _ => 0) [AgeViol.fin 2] 0 =
        sumToCViol 1 [0] (fun _ _ => 0) (fun _ => 0) +
          (finiteViols [AgeViol.fin 2]).sum + 0)) :=
  C8_rough_primal_aggregation 1 [0] (fun _ _ => 0) (fun _ => 0)
    [AgeViol.fin 2] 0 (by simp)

/-- C9 counterexample: for a must-certify term with an empty cover the code
(lines 387-388) returns per-term violation 0 without ever assessing the
membership violation of A mu_i + v_i b, while the claimed formula adds that
violation (here 1, so the two sides differ).  Empty covers for must-certify
terms are reachable: the trivial-cone elimination, on by default, empties
them, and the dual compiler still emits the A mu_i + v_i b in K block for
such terms (lines 349-358), so the claimed formula is false on reachable
inputs. -/
theorem C9_cex :
    dualAgeViolationRough [] 0 [] [] [] 1 = 0 ∧
    linfNorm (List.zipWith (fun a l => min (a - l) 0)
      (negCoverMatVec [] 0 [] []) []) + 1 = (1 : ℚ) ∧
    (0 : ℚ) ≠ 1 := by
  refine ⟨rfl, ?_, ?_⟩
  · simp [linfNorm, negCoverMatVec]
  · norm_num

/-- C9 (amended): for a must-certify term with a nonempty cover the rough
per-term dual violation is the negatively clipped relative-entropy
lower-bound residual norm plus the dual-cone membership violation of
A mu_i + v_i b; for a must-certify term with an empty cover it is 0, the
membership violation never being assessed; and the overall dual violation is
the maximum of the per-term values over the must-certify set: an upper bound
that is attained. -/
theorem C9_dual_violation :
    ∀ (alpha : List (List ℚ)) (uI : List ℕ) (covOf : ℕ → List Bool)
      (muOf : ℕ → List ℚ) (lbOf : ℕ → List ℚ) (abkOf : ℕ → ℚ),
      uI ≠ [] →
      (∀ i, (covOf i).any id = true →
        dualAgeViolationRough alpha i (covOf i) (muOf i) (lbOf i) (abkOf i) =
          linfNorm (List.zipWith (fun a l => min (a - l) 0)
            (negCoverMatVec alpha i (covOf i) (muOf i)) (lbOf i)) + abkOf i) ∧
      (∀ i, (covOf i).any id = false →
        dualAgeViolationRough alpha i (covOf i) (muOf i) (lbOf i) (abkOf i) = 0) ∧
      (∀ i ∈ uI,
        dualAgeViolationRough alpha i (covOf i) (muOf i) (lbOf i) (abkOf i) ≤
          dualViolation alpha uI covOf muOf lbOf abkOf) ∧
      (∃ i, i ∈ uI ∧ dualViolation alpha uI covOf muOf lbOf abkOf =
        dualAgeViolationRough alpha i (covOf i) (muOf i) (lbOf i) (abkOf i)) := by
  intro alpha uI covOf muOf lbOf abkOf hne
  refine ⟨?_, ?_, ?_, ?_⟩
  · intro i hcov
    unfold dualAgeViolationRough
    rw [if_pos hcov]
    congr 1
    rw [List.map_zipWith]
    have hfun : (fun (x y : ℚ) => if 0 ≤ x - y then 0 else x - y) =
        fun a l => min (a - l) 0 := by
      funext a l
      rcases le_or_lt 0 (a - l) with h | h
      · rw [if_pos h]
        exact (min_eq_right h).symm
      · rw [if_neg (not_le.mpr h)]
        exact (min_eq_left (le_of_lt h)).symm
    rw [hfun]
  · intro i hcov
    unfold dualAgeViolationRough
    rw [hcov]
    simp
  · intro i hi
    exact le_maxList _ _ (List.mem_map_of_mem _ hi)
  · have hmem := maxList_mem (uI.map fun i =>
      dualAgeViolationRough alpha i (covOf i) (muOf i) (lbOf i) (abkOf i))
      (by simpa using hne)
    obtain ⟨i, hi, heq⟩ := List.mem_map.mp hmem
    exact ⟨i, hi, heq.symm⟩

/-- C9 witness: the dual violation theorem with one must-certify term of
empty cover. -/
theorem C9_dual_violation_witness :
    (∀ i, (([] : List Bool)).any id = true →
      dualAgeViolationRough [] i [] [] [] 0 =
        linfNorm (List.zipWith (fun a l => min (a - l) 0)
          (negCoverMatVec [] i [] []) []) + 0) ∧
    (∀ i, (([] : List Bool)).any id = false →
      dualAgeViolationRough [] i [] [] [] 0 = 0) ∧
    (∀ i ∈ [0], dualAgeViolationRough [] i [] [] [] 0 ≤
      dualViolation [] [0] (fun _ => []) (fun _ => []) (fun _ => []) (fun _ => 0)) ∧
    (∃ i, i ∈ [0] ∧
      dualViolation [] [0] (fun _ => []) (fun _ => []) (fun _ => []) (fun _ => 0) =
        dualAgeViolationRough [] i [] [] [] 0) :=
  C9_dual_violation [] [0] (fun _ => []) (fun _ => []) (fun _ => [])
    (fun _ => 0) (by simp)

/-- C1 witness: the global-sum-block theorem at m = 2 with two constant
negative coefficients, empty covers and zero decomposition variables. -/
theorem C1_global_sum_block_witness :
    ((conicForm 2 (U_I cW1) (N_I cW1)
        (buildAlignedAgeVectors 2 (N_I cW1) (fun _ => [false, false]) cvalW1
          (fun _ _ => 0)) cvalW1).countP Block.isGlobalSum = 1) ∧
    (Block.globalSum (sumToCRows 2 (U_I cW1) (N_I cW1)
        (buildAlignedAgeVectors 2 (N_I cW1) (fun _ => [false, false]) cvalW1
          (fun _ _ => 0)) cvalW1) ∈
      conicForm 2 (U_I cW1) (N_I cW1)
        (buildAlignedAgeVectors 2 (N_I cW1) (fun _ => [false, false]) cvalW1
          (fun _ _ => 0)) cvalW1) ∧
    ((∀ p ∈ sumToCRows 2 (U_I cW1) (N_I cW1)
        (buildAlignedAgeVectors 2 (N_I cW1) (fun _ => [false, false]) cvalW1
          (fun _ _ => 0)) cvalW1, p.1 = p.2) ↔
      ∀ j, j < 2 → j ∉ N_I cW1 →
        ((U_I cW1).map fun i =>
          buildAlignedAgeVectors 2 (N_I cW1) (fun _ => [false, false]) cvalW1
            (fun _ _ => 0) i j).sum = cvalW1 j) ∧
    (∀ i ∈ N_I cW1,
      buildAlignedAgeVectors 2 (N_I cW1) (fun _ => [false, false]) cvalW1
        (fun _ _ => 0) i i = (cW1.getD i ⟨true, 0⟩).offset) :=
  C1_global_sum_block 2 cW1 cvalW1 (fun _ => [false, false]) (fun _ _ => 0)
    (by decide)
    (by
      intro i h
      match i, h with
      | 0, _ => rfl
      | 1, _ => rfl
      | (n + 2), _ => rfl)
